import Mathlib

/-!
Verification of the Export & Rating-Reconciliation Engine
(Joycaption Mobile LoRa Organizer, Rust sources under src-tauri/src/commands).

Shallow embedding conventions:
* Rust `String` / `&str` values are Lean `String`s; character-level operations
  (trim, split, replace, lowercase) are implemented on `List Char` and lifted.
* Filesystem state is an explicit `FS` record (existence, readability, copy
  success); fallible Rust functions returning `Result` become `Except`.
* `HashMap<String, String>` is modelled as an association list together with
  an iteration order; Rust's iteration order is unspecified, so theorems
  quantify over the list (hence over every possible order).
* Rust's stable `slice::sort` on `PathBuf` is modelled as a stable insertion
  sort by the string order (stable sorts agree pointwise); `PathBuf` ordering
  coincides with string ordering on the concrete paths used here.
-/

/-- Whitespace test used to model Rust's `char::is_whitespace` in `str::trim`. -/
def wsChar (c : Char) : Bool :=
  c.isWhitespace

/-- Drop leading whitespace, model of the first half of Rust `str::trim`. -/
def dropLeadWS (cs : List Char) : List Char :=
  cs.dropWhile wsChar

/-- Model of Rust `str::trim` on a character list: strip whitespace from both ends. -/
def trimList (cs : List Char) : List Char :=
  ((dropLeadWS cs).reverse.dropWhile wsChar).reverse

/-- Model of Rust `str::trim`, lifted to `String`. -/
def trimStr (s : String) : String :=
  String.mk (trimList s.toList)

/-- Model of Rust `str::to_lowercase` (ASCII-relevant part, per-character). -/
def lowerStr (s : String) : String :=
  String.mk (s.toList.map Char.toLower)

/-- Model of Rust `str::replace('\\', "/")`: backslashes become forward slashes. -/
def replaceBSList (cs : List Char) : List Char :=
  cs.map (fun c => if c = '\\' then '/' else c)

/-- Model of Rust `str::replace('\\', "/")`, lifted to `String`. -/
def replaceBSStr (s : String) : String :=
  String.mk (replaceBSList s.toList)

/-- Separator test from `normalize_rel`: `|c| c == '/' || c == '\\'`. -/
def sepChar (c : Char) : Bool :=
  c = '/' || c = '\\'

/-- Drop leading separators, model of `trim_start_matches(|c| c == '/' || c == '\\')`. -/
def dropSep (cs : List Char) : List Char :=
  cs.dropWhile sepChar

/-- Embedding of `normalize_rel` (export.rs): forward slashes, no leading separators. -/
def normalize_rel (s : String) : String :=
  String.mk (dropSep (replaceBSList s.toList))

/-- Embedding of `normalize_key_for_lookup` (export.rs): normalize then case-fold. -/
def normalize_key_for_lookup (s : String) : String :=
  lowerStr (normalize_rel s)

/-- Model of Rust `str::starts_with` on strings. -/
def startsWithStr (s pfx : String) : Bool :=
  pfx.toList.isPrefixOf s.toList

/-- Model of Rust `str::strip_prefix`: the remainder when `pfx` is a prefix. -/
def stripPfxStr (s pfx : String) : Option String :=
  if pfx.toList.isPrefixOf s.toList then some (String.mk (s.toList.drop pfx.toList.length))
  else none

/-- Split a character list at every comma; model of Rust `str::split(',')`
(the empty input yields one empty segment, as in Rust). -/
def splitOnComma : List Char → List (List Char)
  | [] => [[]]
  | c :: cs =>
    if c = ',' then [] :: splitOnComma cs
    else
      match splitOnComma cs with
      | [] => [[c]]
      | t :: ts => (c :: t) :: ts

/-- Split a character list at the last occurrence of a dot; model of Rust
`str::rsplit_once('.')` returning (before, after). -/
def rsplitDot : List Char → Option (List Char × List Char)
  | [] => none
  | c :: cs =>
    match rsplitDot cs with
    | some (a, b) => some (c :: a, b)
    | none => if c = '.' then some ([], cs) else none

/-- File-name component of a path string: the characters after the last slash. -/
def fileNameChars (cs : List Char) : List Char :=
  (cs.reverse.takeWhile (fun c => c ≠ '/')).reverse

/-- Directory part of a path string (everything up to and including the last slash). -/
def dirChars (cs : List Char) : List Char :=
  cs.take (cs.length - (fileNameChars cs).length)

/-- Model of Rust `Path::extension()`: the part of the file name after the last
dot, none when there is no dot or the only dot starts the (hidden) file name. -/
def pathExt (p : String) : Option String :=
  match rsplitDot (fileNameChars p.toList) with
  | some (stem, e) => if stem = [] then none else some (String.mk e)
  | none => none

/-- Extension allow-list `IMAGE_EXT` from export.rs. -/
def IMAGE_EXT : List String :=
  ["png", "jpg", "jpeg", "webp", "gif", "bmp"]

/-- Model of Rust `str::eq_ignore_ascii_case` via per-character lowering. -/
def eqIgnoreCase (a b : String) : Bool :=
  lowerStr a = lowerStr b

/-- Embedding of `is_image` (export.rs): lowercased extension in the allow-list. -/
def is_image (p : String) : Bool :=
  match pathExt p with
  | none => false
  | some e => IMAGE_EXT.any (fun x => eqIgnoreCase x (lowerStr e))

/-- Embedding of `caption_path` (export.rs) / `caption_path_for` (captions.rs):
Rust `Path::with_extension("txt")` — replace the extension, or append one. -/
def caption_path (img : String) : String :=
  let cs := img.toList
  let fname := fileNameChars cs
  let fname2 :=
    match rsplitDot fname with
    | some (stem, _) => if stem = [] then fname ++ ".txt".toList else stem ++ ".txt".toList
    | none => fname ++ ".txt".toList
  String.mk (dirChars cs ++ fname2)

/-- Decimal digit character, used to model Rust's integer `Display`. -/
def decDigit (d : Nat) : Char :=
  if d = 0 then '0' else if d = 1 then '1' else if d = 2 then '2'
  else if d = 3 then '3' else if d = 4 then '4' else if d = 5 then '5'
  else if d = 6 then '6' else if d = 7 then '7' else if d = 8 then '8' else '9'

/-- Fuel-driven digit expansion; with fuel above `n` it is the decimal
representation of `n`, most significant digit first. -/
def natDecimalAux : Nat → Nat → List Char
  | _, 0 => []
  | n, fuel + 1 =>
    if n < 10 then [decDigit n]
    else natDecimalAux (n / 10) fuel ++ [decDigit (n % 10)]

/-- Decimal representation of a natural number, most significant digit first;
model of Rust's decimal integer formatting. -/
def natDecimal (n : Nat) : List Char :=
  natDecimalAux n (n + 1)

/-- Character list behind the Rust format specifier 04d: the decimal
representation left-padded with zeros to a minimum width of four characters. -/
def format04Chars (n : Nat) : List Char :=
  List.replicate (4 - (natDecimal n).length) '0' ++ natDecimal n

/-- Model of the Rust format specifier 04d. -/
def format04 (n : Nat) : String :=
  String.mk (format04Chars n)

example : format04 7 = "0007" := by decide
example : format04 12 = "0012" := by decide
example : format04 10000 = "10000" := by decide
example : String.mk (natDecimal 105) = "105" := by decide

/-- Filesystem and I/O environment for one export invocation: which paths are
regular files, which exist at all, text/binary read results, copy success, and
the directory/zip side conditions. The walk collaborator's output for the
canonical source appears as `walkFiles` (spec §1: `walk(root)` is an assumed
collaborator yielding file entries). -/
structure FS where
  isFile : String → Bool
  present : String → Bool
  readText : String → Option String
  readOk : String → Bool
  copyOk : String → String → Bool
  createDirOk : Bool
  createFileOk : Bool
  zipEntryOk : String → Bool
  walkFiles : List String

/-- Embedding of `CaptionData` (captions.rs). -/
structure CaptionData where
  exists_ : Bool
  raw : String
  tags : List String
deriving DecidableEq

/-- Embedding of `parse_tags` (captions.rs): split on commas, trim each
segment, discard empty segments. -/
def parse_tags (raw : String) : List String :=
  ((splitOnComma raw.toList).map (fun t => String.mk (trimList t))).filter
    (fun s => s ≠ "")

/-- Character-level model of Rust `Vec<String>::join(", ")`. -/
def joinCommaChars : List (List Char) → List Char
  | [] => []
  | [t] => t
  | t :: ts => t ++ ',' :: ' ' :: joinCommaChars ts

/-- Model of `tags.join(", ")` as used by `write_caption` (captions.rs). -/
def joinComma (tags : List String) : String :=
  String.mk (joinCommaChars (tags.map String.toList))

/-- Embedding of `read_caption` (captions.rs): absent caption file gives
`exists=false`; otherwise the file is read, `raw` is the trimmed content and
`tags` the parsed list; a read failure is an error. -/
def read_caption (fs : FS) (path : String) : Except String CaptionData :=
  let cp := caption_path path
  if fs.present cp = false then .ok ⟨false, "", []⟩
  else
    match fs.readText cp with
    | some raw => .ok ⟨true, trimStr raw, parse_tags raw⟩
    | none => .error "read failed"

/-- Embedding of `write_caption` (captions.rs) as a filesystem transformer:
the caption file now exists and reads back as the joined tag list. -/
def write_caption (fs : FS) (path : String) (tags : List String) : FS :=
  let cp := caption_path path
  let content := joinComma tags
  { fs with
    present := fun q => if q = cp then true else fs.present q
    readText := fun q => if q = cp then some content else fs.readText q }

/-- Embedding of `ExportOptions` (export.rs). -/
structure ExportOptions where
  source_path : String
  dest_path : String
  as_zip : Bool
  only_captioned : Bool
  relative_paths : Option (List String)
  trigger_word : Option String
  sequential_naming : Bool

/-- Embedding of `ExportResult` (export.rs). -/
structure ExportResult where
  success : Bool
  exported_count : Nat
  skipped_count : Nat
  error : Option String
  output_path : String
deriving DecidableEq

/-- Observable output effects of an export pass: file copies, caption text
writes (folder sink), and archive entries (archive sink). -/
inductive Event where
  | copy (src dst : String)
  | writeText (dst content : String)
  | zipFile (name src : String)
  | zipText (name content : String)
deriving DecidableEq

/-- Embedding of `apply_trigger` (export.rs): trim the content; a configured
non-empty trigger word is trimmed and prefixed with a comma separator. -/
def apply_trigger (content : String) (trigger : Option String) : String :=
  let c := trimStr content
  match trigger with
  | some t => if t ≠ "" then trimStr t ++ ", " ++ c else c
  | none => c

/-- Embedding of `name.rsplit_once('.').map(|(n, _)| n).unwrap_or(&name)`:
the destination base name without its extension. -/
def baseOf (name : String) : String :=
  match rsplitDot name.toList with
  | some (b, _) => String.mk b
  | none => name

/-- Embedding of `img.extension().and_then(|e| e.to_str()).unwrap_or("png")`. -/
def extOr (img : String) : String :=
  (pathExt img).getD "png"

/-- Embedding of `img.file_name().and_then(|n| n.to_str()).unwrap_or("image.png")`. -/
def fileNameOr (img : String) : String :=
  let f := fileNameChars img.toList
  if f = [] then "image.png" else String.mk f

/-- Destination-name computation shared verbatim by `export_folder`,
`export_zip` and the per-bucket loop of `export_by_rating`: a zero-padded
1-based index plus the original extension when sequential naming is on,
otherwise the original file name. -/
def destName (sequential : Bool) (i : Nat) (img : String) : String :=
  if sequential then format04 (i + 1) ++ "." ++ extOr img
  else fileNameOr img

/-- Embedding of the per-image loop of `export_folder` (export.rs): starting at
index `i`, returns (exported, skipped, events). A failed copy increments the
skip counter; a successful copy emits the copy event, then — when the source
caption file exists and reads — the transformed caption write. -/
def folderLoop (fs : FS) (tw : Option String) (sq : Bool) (dest : String) :
    List String → Nat → Nat × Nat × List Event
  | [], _ => (0, 0, [])
  | img :: rest, i =>
    let name := destName sq i img
    let destImg := dest ++ "/" ++ name
    if fs.copyOk img destImg = false then
      let t := folderLoop fs tw sq dest rest (i + 1)
      (t.1, t.2.1 + 1, t.2.2)
    else
      let destTxt := dest ++ "/" ++ baseOf name ++ ".txt"
      let capSrc := caption_path img
      let capEvents :=
        if fs.present capSrc then
          match fs.readText capSrc with
          | some content => [Event.writeText destTxt (apply_trigger content tw)]
          | none => []
        else []
      let t := folderLoop fs tw sq dest rest (i + 1)
      (t.1 + 1, t.2.1, Event.copy img destImg :: capEvents ++ t.2.2)

/-- Embedding of `export_folder` (export.rs): create the destination
directory, then run the per-image loop from index 0. -/
def export_folder (fs : FS) (images : List String) (opt : ExportOptions) :
    Except String (ExportResult × List Event) :=
  if fs.createDirOk = false then .error "create_dir_all failed"
  else
    let t := folderLoop fs opt.trigger_word opt.sequential_naming opt.dest_path images 0
    .ok (⟨true, t.1, t.2.1, none, opt.dest_path⟩, t.2.2)

/-- Caption step of the `export_zip` loop (export.rs lines 189-198): when the
source caption file exists and reads, start a text entry (aborting on an
archive failure) holding the transformed content. -/
def zipCapStep (fs : FS) (tw : Option String) (img txtName : String) :
    Except String (List Event) :=
  if fs.present (caption_path img) then
    match fs.readText (caption_path img) with
    | some content =>
      if fs.zipEntryOk txtName = false then .error "zip entry failed"
      else .ok [Event.zipText txtName (apply_trigger content tw)]
    | none => .ok []
  else .ok []

/-- Embedding of the per-image loop of `export_zip` (export.rs): a failed
binary read skips the image; a failed archive operation aborts the pass. -/
def zipLoop (fs : FS) (tw : Option String) (sq : Bool) :
    List String → Nat → Except String (Nat × Nat × List Event)
  | [], _ => .ok (0, 0, [])
  | img :: rest, i =>
    let name := destName sq i img
    if fs.readOk img = false then
      match zipLoop fs tw sq rest (i + 1) with
      | .error e => .error e
      | .ok t => .ok (t.1, t.2.1 + 1, t.2.2)
    else if fs.zipEntryOk name = false then .error "zip entry failed"
    else
      match zipCapStep fs tw img (baseOf name ++ ".txt") with
      | .error e => .error e
      | .ok capEvents =>
        match zipLoop fs tw sq rest (i + 1) with
        | .error e => .error e
        | .ok t => .ok (t.1 + 1, t.2.1, Event.zipFile name img :: capEvents ++ t.2.2)

/-- Embedding of `export_zip` (export.rs): create the archive file, run the
per-image loop from index 0, finalize. -/
def export_zip (fs : FS) (images : List String) (opt : ExportOptions) :
    Except String (ExportResult × List Event) :=
  if fs.createFileOk = false then .error "file create failed"
  else
    match zipLoop fs opt.trigger_word opt.sequential_naming images 0 with
    | .error e => .error e
    | .ok t => .ok (⟨true, t.1, t.2.1, none, opt.dest_path⟩, t.2.2)

/-- Selection of `export_dataset` (export.rs) before the final sort: the
explicit relative-path branch normalizes, joins to the canonical root and
keeps existing image files passing the only-captioned test in caller order;
the walk branch filters the full walk the same way. -/
def selectPre (fs : FS) (canonical : String) (opt : ExportOptions) : List String :=
  match opt.relative_paths with
  | some rels =>
    rels.filterMap (fun rel =>
      let n := normalize_rel rel
      if n = "" then none
      else
        let full := canonical ++ "/" ++ n
        if fs.isFile full && is_image full then
          if opt.only_captioned && !fs.present (caption_path full) then none
          else some full
        else none)
  | none =>
    fs.walkFiles.filter (fun p =>
      fs.isFile p && is_image p &&
        (!opt.only_captioned || fs.present (caption_path p)))

/-- Lexicographic comparison of character lists; model of the byte-wise
ordering Rust uses to compare path strings. -/
def listLe : List Char → List Char → Bool
  | [], _ => true
  | _ :: _, [] => false
  | a :: as, b :: bs => if a < b then true else if b < a then false else listLe as bs

/-- Path-string comparison used to model `Vec<PathBuf>::sort()`. -/
def strLe (a b : String) : Bool :=
  listLe a.toList b.toList

/-- Embedding of the selection of `export_dataset` including the final
`images.sort()` (export.rs line 101), which runs in both branches. Rust's
stable sort is modelled by insertion sort over the string order. -/
def selectImages (fs : FS) (canonical : String) (opt : ExportOptions) : List String :=
  List.insertionSort (fun a b : String => strLe a b = true) (selectPre fs canonical opt)

/-- Embedding of `export_dataset` (export.rs) given the canonicalized source
root: select images, then dispatch on `as_zip`. -/
def export_dataset (fs : FS) (canonical : String) (opt : ExportOptions) :
    Except String (ExportResult × List Event) :=
  let images := selectImages fs canonical opt
  if opt.as_zip then export_zip fs images opt else export_folder fs images opt

/-- Exact-key lookup in the ratings mapping; model of `HashMap::get` over the
association-list representation. -/
def lookupExact (m : List (String × String)) (k : String) : Option String :=
  match m with
  | [] => none
  | (k0, v) :: rest => if k0 = k then some v else lookupExact rest k

/-- Embedding of the `for (k, v) in &ratings.ratings` loop of
`get_rating_for_path` (export.rs lines 251-270): for each key in iteration
order, first the case-insensitive comparison, then the root-stripping
comparison; the first key matching either way wins. -/
def ratingScan (want rootNorm : String) : List (String × String) → Option String
  | [] => none
  | (k, v) :: rest =>
    if normalize_key_for_lookup k = want then some v
    else
      let kNorm := normalize_key_for_lookup k
      let rootFS := replaceBSStr rootNorm
      if rootNorm ≠ "" ∧ kNorm.length > rootNorm.length ∧
          (startsWithStr kNorm rootNorm || startsWithStr kNorm rootFS) then
        let suffix :=
          ((stripPfxStr kNorm rootNorm).orElse (fun _ => stripPfxStr kNorm rootFS)).getD kNorm
        let suffixTrim := String.mk (dropSep suffix.toList)
        if suffixTrim ≠ "" ∧ normalize_key_for_lookup suffixTrim = want then some v
        else ratingScan want rootNorm rest
      else ratingScan want rootNorm rest

/-- Embedding of `get_rating_for_path` (export.rs): exact normalized key, then
exact raw key when it differs, then the fused case-insensitive/root-stripping
scan, defaulting to the label none. -/
def get_rating_for_path (ratings : List (String × String))
    (relKey rel projectRoot : String) : String :=
  match lookupExact ratings relKey with
  | some v => v
  | none =>
    match (if rel ≠ relKey then lookupExact ratings rel else none) with
    | some v => v
    | none =>
      let want := normalize_key_for_lookup relKey
      let rootNorm := normalize_key_for_lookup projectRoot
      (ratingScan want rootNorm ratings).getD "none"

/-- Tier-3 matcher of the spec (§4.4): case-insensitive comparison of a
mapping key against the case-folded target. -/
def matcherCI (want : String) (kv : String × String) : Option String :=
  if normalize_key_for_lookup kv.1 = want then some kv.2 else none

/-- Tier-4 matcher of the spec (§4.4): case-fold the key; when longer than
the case-folded root and starting with it under either slash convention,
strip the root and leading separators and compare case-insensitively. -/
def matcherRootStrip (want rootNorm : String) (kv : String × String) : Option String :=
  let kNorm := normalize_key_for_lookup kv.1
  let rootFS := replaceBSStr rootNorm
  if rootNorm ≠ "" ∧ kNorm.length > rootNorm.length ∧
      (startsWithStr kNorm rootNorm || startsWithStr kNorm rootFS) then
    let suffix :=
      ((stripPfxStr kNorm rootNorm).orElse (fun _ => stripPfxStr kNorm rootFS)).getD kNorm
    let suffixTrim := String.mk (dropSep suffix.toList)
    if suffixTrim ≠ "" ∧ normalize_key_for_lookup suffixTrim = want then some kv.2
    else none
  else none

/-- Rating lookup exactly as claim C1 words it: four strictly ordered tiers,
the tier-3 scan over all keys completing before any tier-4 comparison. -/
def specResolveOrdered (ratings : List (String × String))
    (relKey rel projectRoot : String) : String :=
  let want := normalize_key_for_lookup relKey
  let rootNorm := normalize_key_for_lookup projectRoot
  match lookupExact ratings relKey with
  | some v => v
  | none =>
    match (if rel ≠ relKey then lookupExact ratings rel else none) with
    | some v => v
    | none =>
      match ratings.findSome? (matcherCI want) with
      | some v => v
      | none =>
        match ratings.findSome? (matcherRootStrip want rootNorm) with
        | some v => v
        | none => "none"

/-- Rating lookup with tiers 3 and 4 fused per key, as the code actually
scans: for each mapping entry in iteration order, the case-insensitive
matcher is tried first and then the root-stripping matcher. -/
def specResolveFused (ratings : List (String × String))
    (relKey rel projectRoot : String) : String :=
  let want := normalize_key_for_lookup relKey
  let rootNorm := normalize_key_for_lookup projectRoot
  match lookupExact ratings relKey with
  | some v => v
  | none =>
    match (if rel ≠ relKey then lookupExact ratings rel else none) with
    | some v => v
    | none =>
      match ratings.findSome? (fun kv =>
          match matcherCI want kv with
          | some v => some v
          | none => matcherRootStrip want rootNorm kv) with
      | some v => v
      | none => "none"

/-- Modelled from the spec: the `ImageRating` enum lives in `ratings.rs`
(module `super::ratings`), which is not among the sources; the spec (§3)
fixes the four rating labels good, bad, needs_edit and none. -/
inductive ImageRating where
  | Good
  | Bad
  | NeedsEdit
  | NoneRating
deriving DecidableEq

/-- Modelled from the spec: `ImageRating::from_str` of `ratings.rs` is not
among the sources; the spec (§3, §6) maps the labels good, bad and
needs_edit to themselves and everything else to the none rating. -/
def ImageRating.from_str (s : String) : ImageRating :=
  if s = "good" then .Good
  else if s = "bad" then .Bad
  else if s = "needs_edit" then .NeedsEdit
  else .NoneRating

/-- Embedding of `rating_key` (export.rs): bucket name per rating, none for
the unrated label. -/
def rating_key (r : ImageRating) : Option String :=
  match r with
  | .Good => some "good"
  | .Bad => some "bad"
  | .NeedsEdit => some "needs_edit"
  | .NoneRating => none

/-- Model of `p.strip_prefix(&canonical)` on paths: the remainder after the
canonical root, empty for the root itself. -/
def stripRoot (canonical p : String) : Option String :=
  if p = canonical then some "" else stripPfxStr p (canonical ++ "/")

/-- Resolved rating label of one walked entry in `export_by_rating`
(export.rs lines 294-311), none when the entry is filtered out before the
rating is computed. -/
def resolvedRatingStr (fs : FS) (ratings : List (String × String))
    (canonical p : String) : Option String :=
  if fs.isFile p = false || is_image p = false then none
  else
    match stripRoot canonical p with
    | none => none
    | some rel0 =>
      let rel := replaceBSStr rel0
      if rel = "" then none
      else
        let relKey := normalize_rel rel
        if relKey = "" then none
        else some (get_rating_for_path ratings relKey rel canonical)

/-- Bucket routing of one walked entry: the bucket name from `rating_key`
after `ImageRating::from_str`, none when the entry is dropped. -/
def routeOf (fs : FS) (ratings : List (String × String))
    (canonical p : String) : Option String :=
  match resolvedRatingStr fs ratings canonical p with
  | none => none
  | some s => rating_key (ImageRating.from_str s)

/-- Embedding of the bucket-filling walk loop of `export_by_rating`
(export.rs lines 294-316): good, bad and needs_edit lists in walk order. -/
def bucketize (fs : FS) (ratings : List (String × String)) (canonical : String) :
    List String → List String × List String × List String
  | [] => ([], [], [])
  | p :: rest =>
    let t := bucketize fs ratings canonical rest
    match routeOf fs ratings canonical p with
    | some l =>
      if l = "good" then (p :: t.1, t.2.1, t.2.2)
      else if l = "bad" then (t.1, p :: t.2.1, t.2.2)
      else (t.1, t.2.1, p :: t.2.2)
    | none => t

/-- Embedding of `ExportByRatingOptions` (export.rs). -/
structure ExportByRatingOptions where
  source_path : String
  dest_path : String
  trigger_word : Option String
  sequential_naming : Bool

/-- Embedding of `export_by_rating` (export.rs): fill the buckets from the
walk, then per bucket sort and run the folder-sink loop into the bucket
subdirectory, summing the counts. The bucket processing order of the Rust
`HashMap` is unspecified; the fixed order good, bad, needs_edit is one such
order, and the per-bucket loops are independent. -/
def export_by_rating (fs : FS) (ratings : List (String × String))
    (canonical : String) (options : ExportByRatingOptions) :
    Except String (ExportResult × List Event) :=
  if fs.createDirOk = false then .error "create_dir_all failed"
  else
    let b := bucketize fs ratings canonical fs.walkFiles
    let run := fun (sub : String) (l : List String) =>
      folderLoop fs options.trigger_word options.sequential_naming
        (options.dest_path ++ "/" ++ sub)
        (List.insertionSort (fun a b : String => strLe a b = true) l) 0
    let tg := run "good" b.1
    let tb := run "bad" b.2.1
    let tn := run "needs_edit" b.2.2
    .ok (⟨true, tg.1 + tb.1 + tn.1, tg.2.1 + tb.2.1 + tn.2.1, none, options.dest_path⟩,
      tg.2.2 ++ tb.2.2 ++ tn.2.2)

/-- Candidate name probed by the save-crop-as-new allocator (images.rs):
parent slash stem underscore n underscore crop dot ext. -/
def cropCandidate (parent stem ext : String) (n : Nat) : String :=
  parent ++ "/" ++ stem ++ "_" ++ String.mk (natDecimal n) ++ "_" ++ "crop." ++ ext

/-- Embedding of the candidate-probing loop of `crop_image` (images.rs lines
137-148): probe candidate `n`; on a hit return it, otherwise advance until the
fuel runs out, then fail. Fuel 9998 from `findCropName` makes the last probed
index 9999, matching the `n > 9999` guard. -/
def cropProbe (present : String → Bool) (parent stem ext : String) :
    Nat → Nat → Except String String
  | n, 0 =>
    if present (cropCandidate parent stem ext n) = false then
      .ok (cropCandidate parent stem ext n)
    else .error "Could not create unique filename for new image"
  | n, fuel + 1 =>
    if present (cropCandidate parent stem ext n) = false then
      .ok (cropCandidate parent stem ext n)
    else cropProbe present parent stem ext (n + 1) fuel

/-- Name allocation of `crop_image` with `save_as_new` (images.rs): first
free candidate starting at index 1, error after index 9999. -/
def findCropName (present : String → Bool) (parent stem ext : String) :
    Except String String :=
  cropProbe present parent stem ext 1 9998

example : get_rating_for_path [("a/b.png", "good")] "a/b.png" "a/b.png" "/root" = "good" := by decide
example : get_rating_for_path [("a/b.png", "good")] "a/B.PNG" "a/B.PNG" "/root" = "good" := by decide
example : get_rating_for_path [("/root/a/b.png", "bad")] "a/b.png" "a/b.png" "/root" = "bad" := by decide
example : get_rating_for_path [] "c/d.png" "c/d.png" "/root" = "none" := by decide
example : findCropName (fun _ => false) "/p" "img" "png" = .ok "/p/img_1_crop.png" := rfl

example : apply_trigger "red hair, smiling" (some "sks") = "sks, red hair, smiling" := by decide
example : destName true 6 "/a/b.png" = "0007.png" := by decide
example : baseOf "0007.png" = "0007" := by decide

example : parse_tags "red hair, outdoors, 1girl" = ["red hair", "outdoors", "1girl"] := by decide
example : parse_tags "  ,  " = [] := by decide
example : joinComma ["a", "b"] = "a, b" := by decide

example : caption_path "/data/a/b.png" = "/data/a/b.txt" := by decide
example : caption_path "/data/a/noext" = "/data/a/noext.txt" := by decide
example : normalize_rel "\\a\\b.png" = "a/b.png" := by decide
example : normalize_key_for_lookup "/Root/A.PNG" = "root/a.png" := by decide
example : is_image "/x/y.JPG" = true := by decide
example : is_image "/x/y.txt" = false := by decide
example : pathExt "/x/.gitignore" = none := by decide

/-- All-permissive filesystem fixture for concrete export runs. -/
def fsAll : FS :=
  ⟨fun _ => true, fun _ => true, fun _ => some "tag", fun _ => true, fun _ _ => true,
    true, true, fun _ => true, []⟩

/-- Plain folder-export options fixture. -/
def optPlain : ExportOptions :=
  ⟨"/s", "/d", false, false, none, none, false⟩

/-- Trigger-word transform exactly as the spec words it (§4.6): trim the
caption content; when a non-empty trigger word is configured the result is
the trimmed trigger, a comma-space, and the trimmed content; otherwise the
trimmed content unchanged. -/
def applyTriggerSpec (content : String) (trigger : Option String) : String :=
  if trigger.getD "" ≠ "" then trimStr (trigger.getD "") ++ ", " ++ trimStr content
  else trimStr content

/-- Ratings fixture for the C1 counterexample: a root-stripping (tier-4)
match sits earlier in iteration order than a case-insensitive (tier-3)
match holding a different label. -/
def cexRatings : List (String × String) :=
  [("/root/a/b.png", "bad"), ("A/B.PNG", "good")]

/-- Filesystem fixture with two images for the selection counterexamples. -/
def fsTwo : FS :=
  ⟨fun p => p = "/src/a.png" || p = "/src/b.png", fun _ => false, fun _ => none,
    fun _ => true, fun _ _ => true, true, true, fun _ => true, []⟩

/-- Options fixture listing the two images in reverse alphabetical order. -/
def optRev : ExportOptions :=
  ⟨"/src", "/d", false, false, some ["b.png", "a.png"], none, false⟩

/-- Options fixture listing the same image twice. -/
def optDup : ExportOptions :=
  ⟨"/src", "/d", false, false, some ["a.png", "a.png"], none, false⟩

/-- Walk fixture with one rated image for the C4 witness. -/
def fsWalk : FS :=
  ⟨fun _ => true, fun _ => false, fun _ => none, fun _ => true, fun _ _ => true,
    true, true, fun _ => true, ["/r/a.png"]⟩

/-- Numeric value of a decimal digit character. -/
def digitVal (c : Char) : Nat :=
  c.toNat - 48

/-- Accumulating decimal evaluation of a digit string. -/
def valOfAux (a : Nat) : List Char → Nat
  | [] => a
  | c :: cs => valOfAux (10 * a + digitVal c) cs

/-- Sequential destination names of a selection, one per enumerated image,
exactly as `export_folder` and `export_zip` compute them. -/
def seqNames (images : List String) : List String :=
  images.enum.map (fun q => destName true q.1 q.2)

/-- Empty-caption fixture: one image whose caption file exists holding only
whitespace. -/
def fsEmptyCap : FS :=
  ⟨fun p => p = "/src/a.png", fun p => p = "/src/a.txt",
    fun p => if p = "/src/a.txt" then some "  " else none,
    fun _ => true, fun _ _ => true, true, true, fun _ => true, []⟩

/-- Only-captioned options fixture selecting the one image. -/
def optCap : ExportOptions :=
  ⟨"/src", "/d", false, true, some ["a.png"], none, false⟩

/-- Inert filesystem fixture. -/
def fs0 : FS :=
  ⟨fun _ => false, fun _ => false, fun _ => none, fun _ => false, fun _ _ => false,
    false, false, fun _ => false, []⟩

/-! ### Shared helper lemmas -/

/-- Each iteration of the folder-sink loop increments exactly one counter. -/
theorem folderLoop_counts (fs : FS) (tw : Option String) (sq : Bool) (dest : String) :
    ∀ (images : List String) (i : Nat),
      (folderLoop fs tw sq dest images i).1 + (folderLoop fs tw sq dest images i).2.1
        = images.length
  | [], _ => rfl
  | img :: rest, i => by
    have ih := folderLoop_counts fs tw sq dest rest (i + 1)
    simp only [folderLoop]
    split
    · simpa using by omega
    · simpa using by omega

/-- Each iteration of the archive-sink loop that completes increments exactly
one counter. -/
theorem zipLoop_counts (fs : FS) (tw : Option String) (sq : Bool) :
    ∀ (images : List String) (i : Nat) (t : Nat × Nat × List Event),
      zipLoop fs tw sq images i = .ok t → t.1 + t.2.1 = images.length
  | [], _, t, h => by
    simp only [zipLoop] at h
    cases h
    rfl
  | img :: rest, i, t, h => by
    simp only [zipLoop] at h
    split at h
    · cases hrec : zipLoop fs tw sq rest (i + 1) with
      | error e => rw [hrec] at h; cases h
      | ok t0 =>
        rw [hrec] at h
        cases h
        have ih := zipLoop_counts fs tw sq rest (i + 1) t0 hrec
        simp only [List.length_cons]
        omega
    · split at h
      · cases h
      · split at h
        · cases h
        · cases hrec : zipLoop fs tw sq rest (i + 1) with
          | error e => rw [hrec] at h; cases h
          | ok t0 =>
            rw [hrec] at h
            cases h
            have ih := zipLoop_counts fs tw sq rest (i + 1) t0 hrec
            simp only [List.length_cons]
            omega

/-- Every copy event of the folder-sink loop originates from a listed image. -/
theorem folderLoop_copy_src (fs : FS) (tw : Option String) (sq : Bool) (dest : String) :
    ∀ (images : List String) (i : Nat) (s d : String),
      Event.copy s d ∈ (folderLoop fs tw sq dest images i).2.2 → s ∈ images
  | [], _, s, d, h => by cases h
  | img :: rest, i, s, d, h => by
    simp only [folderLoop] at h
    split at h
    · exact List.mem_cons_of_mem _ (folderLoop_copy_src fs tw sq dest rest (i + 1) s d h)
    · rcases List.mem_cons.1 h with h1 | h2
      · cases h1
        exact List.mem_cons_self _ _
      · rcases List.mem_append.1 h2 with h3 | h4
        · split at h3
          · split at h3
            · rcases List.mem_singleton.1 h3 with h5
              cases h5
            · cases h3
          · cases h3
        · exact List.mem_cons_of_mem _ (folderLoop_copy_src fs tw sq dest rest (i + 1) s d h4)

/-- Every caption write of the folder-sink loop carries the trigger-word
transform of a caption read from a listed image. -/
theorem folderLoop_writeText (fs : FS) (tw : Option String) (sq : Bool) (dest : String) :
    ∀ (images : List String) (i : Nat) (d c : String),
      Event.writeText d c ∈ (folderLoop fs tw sq dest images i).2.2 →
        ∃ img cap, img ∈ images ∧ fs.readText (caption_path img) = some cap ∧
          c = apply_trigger cap tw
  | [], _, d, c, h => by cases h
  | img :: rest, i, d, c, h => by
    simp only [folderLoop] at h
    split at h
    · obtain ⟨img0, cap, hm, hr, hc⟩ := folderLoop_writeText fs tw sq dest rest (i + 1) d c h
      exact ⟨img0, cap, List.mem_cons_of_mem _ hm, hr, hc⟩
    · rcases List.mem_cons.1 h with h1 | h2
      · cases h1
      · rcases List.mem_append.1 h2 with h3 | h4
        · split at h3
          · cases hread : fs.readText (caption_path img) with
            | some content =>
              rw [hread] at h3
              rcases List.mem_singleton.1 h3 with h5
              cases h5
              exact ⟨img, content, List.mem_cons_self _ _, hread, rfl⟩
            | none => rw [hread] at h3; cases h3
          · cases h3
        · obtain ⟨img0, cap, hm, hr, hc⟩ := folderLoop_writeText fs tw sq dest rest (i + 1) d c h4
          exact ⟨img0, cap, List.mem_cons_of_mem _ hm, hr, hc⟩

/-- Every caption entry emitted by the caption step of the archive loop is
the trigger-word transform of a caption read from the image. -/
theorem zipCapStep_ok_mem (fs : FS) (tw : Option String) (img txtName : String)
    (l : List Event) (name c : String) (h : zipCapStep fs tw img txtName = .ok l)
    (hm : Event.zipText name c ∈ l) :
    ∃ cap, fs.readText (caption_path img) = some cap ∧ c = apply_trigger cap tw := by
  unfold zipCapStep at h
  split at h
  · cases hread : fs.readText (caption_path img) with
    | some content =>
      simp only [hread] at h
      split at h
      · cases h
      · cases h
        rcases List.mem_singleton.1 hm with h5
        cases h5
        exact ⟨content, hread ▸ rfl, rfl⟩
    | none =>
      simp only [hread] at h
      cases h
      cases hm
  · cases h
    cases hm

/-- Every caption entry of the archive-sink loop carries the trigger-word
transform of a caption read from a listed image. -/
theorem zipLoop_zipText (fs : FS) (tw : Option String) (sq : Bool) :
    ∀ (images : List String) (i : Nat) (t : Nat × Nat × List Event) (name c : String),
      zipLoop fs tw sq images i = .ok t → Event.zipText name c ∈ t.2.2 →
        ∃ img cap, img ∈ images ∧ fs.readText (caption_path img) = some cap ∧
          c = apply_trigger cap tw
  | [], _, t, name, c, h, hm => by
    simp only [zipLoop] at h
    cases h
    cases hm
  | img :: rest, i, t, name, c, h, hm => by
    simp only [zipLoop] at h
    split at h
    · cases hrec : zipLoop fs tw sq rest (i + 1) with
      | error e => rw [hrec] at h; cases h
      | ok t0 =>
        rw [hrec] at h
        cases h
        obtain ⟨img0, cap, hm0, hr, hc⟩ :=
          zipLoop_zipText fs tw sq rest (i + 1) t0 name c hrec hm
        exact ⟨img0, cap, List.mem_cons_of_mem _ hm0, hr, hc⟩
    · split at h
      · cases h
      · cases hcap : zipCapStep fs tw img (baseOf (destName sq i img) ++ ".txt") with
        | error e => rw [hcap] at h; cases h
        | ok capEvents =>
          rw [hcap] at h
          cases hrec : zipLoop fs tw sq rest (i + 1) with
          | error e => rw [hrec] at h; cases h
          | ok t0 =>
            rw [hrec] at h
            cases h
            rcases List.mem_cons.1 hm with h1 | h2
            · cases h1
            · rcases List.mem_append.1 h2 with h3 | h4
              · obtain ⟨cap, hr, hc⟩ :=
                  zipCapStep_ok_mem fs tw img (baseOf (destName sq i img) ++ ".txt")
                    capEvents name c hcap h3
                exact ⟨img, cap, List.mem_cons_self _ _, hr, hc⟩
              · obtain ⟨img0, cap, hm0, hr, hc⟩ :=
                  zipLoop_zipText fs tw sq rest (i + 1) t0 name c hrec h4
                exact ⟨img0, cap, List.mem_cons_of_mem _ hm0, hr, hc⟩

/-- When every candidate in the probed window exists, the probe loop fails. -/
theorem cropProbe_all (present : String → Bool) (parent stem ext : String) :
    ∀ (fuel n : Nat),
      (∀ k, n ≤ k → k ≤ n + fuel → present (cropCandidate parent stem ext k) = true) →
      cropProbe present parent stem ext n fuel =
        .error "Could not create unique filename for new image"
  | 0, n, h => by
    simp only [cropProbe]
    rw [h n (Nat.le_refl n) (Nat.le_add_right n 0)]
    simp
  | fuel + 1, n, h => by
    simp only [cropProbe]
    rw [h n (Nat.le_refl n) (Nat.le_add_right n (fuel + 1))]
    simp only [Bool.true_eq_false, if_false]
    exact cropProbe_all present parent stem ext fuel (n + 1)
      (fun k h1 h2 => h k (by omega) (by omega))

/-- The probe loop returns the first free candidate inside its window. -/
theorem cropProbe_find (present : String → Bool) (parent stem ext : String) :
    ∀ (fuel n m : Nat), n ≤ m → m ≤ n + fuel →
      present (cropCandidate parent stem ext m) = false →
      (∀ j, n ≤ j → j < m → present (cropCandidate parent stem ext j) = true) →
      cropProbe present parent stem ext n fuel = .ok (cropCandidate parent stem ext m)
  | 0, n, m, h1, h2, h3, _ => by
    have hm : m = n := by omega
    subst hm
    simp only [cropProbe]
    rw [h3]
    simp
  | fuel + 1, n, m, h1, h2, h3, h4 => by
    by_cases hmn : m = n
    · subst hmn
      simp only [cropProbe]
      rw [h3]
      simp
    · simp only [cropProbe]
      rw [h4 n (Nat.le_refl n) (by omega)]
      simp only [Bool.true_eq_false, if_false]
      exact cropProbe_find present parent stem ext fuel (n + 1) m (by omega) (by omega) h3
        (fun j hj1 hj2 => h4 j (by omega) hj2)

/-- C8: the save-crop-as-new name allocator terminates: it probes candidates
stem_1_crop.ext, stem_2_crop.ext, ... in increasing order, returns the first
candidate that does not exist, and otherwise fails with an explicit error
after at most 9999 probe attempts. -/
theorem crop_allocator_bounded (present : String → Bool) (parent stem ext : String) :
    ((∀ k, 1 ≤ k → k ≤ 9999 → present (cropCandidate parent stem ext k) = true) →
      findCropName present parent stem ext =
        .error "Could not create unique filename for new image") ∧
    (∀ m, 1 ≤ m → m ≤ 9999 → present (cropCandidate parent stem ext m) = false →
      (∀ j, 1 ≤ j → j < m → present (cropCandidate parent stem ext j) = true) →
      findCropName present parent stem ext = .ok (cropCandidate parent stem ext m)) := by
  constructor
  · intro h
    exact cropProbe_all present parent stem ext 9998 1 (fun k h1 h2 => h k h1 (by omega))
  · intro m h1 h2 h3 h4
    exact cropProbe_find present parent stem ext 9998 1 m h1 (by omega) h3 h4

/-- Witness for C8 at a concrete filesystem where no candidate exists: the
very first candidate is returned. -/
theorem crop_allocator_bounded_witness :
    findCropName (fun _ => false) "/p" "img" "png" =
      .ok (cropCandidate "/p" "img" "png" 1) :=
  (crop_allocator_bounded (fun _ => false) "/p" "img" "png").2 1 (by omega) (by omega) rfl
    (fun j hj1 hj2 => absurd (Nat.lt_of_le_of_lt hj1 hj2) (by omega))

/-- C9: in every flat export that returns a result, each selected image
increments exactly one of the two counters, so exported plus skipped equals
the number of selected images. -/
theorem flat_export_counts_partition (fs : FS) (images : List String)
    (opt : ExportOptions) (r : ExportResult) (evs : List Event) :
    (export_folder fs images opt = .ok (r, evs) →
      r.exported_count + r.skipped_count = images.length) ∧
    (export_zip fs images opt = .ok (r, evs) →
      r.exported_count + r.skipped_count = images.length) := by
  constructor
  · intro h
    unfold export_folder at h
    split at h
    · cases h
    · cases h
      exact folderLoop_counts fs opt.trigger_word opt.sequential_naming opt.dest_path images 0
  · intro h
    unfold export_zip at h
    split at h
    · cases h
    · cases hz : zipLoop fs opt.trigger_word opt.sequential_naming images 0 with
      | error e => rw [hz] at h; cases h
      | ok t =>
        rw [hz] at h
        cases h
        exact zipLoop_counts fs opt.trigger_word opt.sequential_naming images 0 t hz

/-- Witness for C9 on a concrete one-image export to a folder. -/
theorem flat_export_counts_partition_witness :
    (⟨true, 1, 0, none, "/d"⟩ : ExportResult).exported_count +
      (⟨true, 1, 0, none, "/d"⟩ : ExportResult).skipped_count = ["/s/a.png"].length :=
  (flat_export_counts_partition fsAll ["/s/a.png"] optPlain ⟨true, 1, 0, none, "/d"⟩
    [Event.copy "/s/a.png" "/d/a.png", Event.writeText "/d/a.txt" "tag"]).1 rfl

/-- C7: the trigger-word transform trims the content, prefixes a configured
non-empty trigger (itself trimmed) with a comma-space separator, matches the
worked example, and is the one transform applied by both the folder sink and
the archive sink to every caption they write. -/
theorem trigger_transform_uniform :
    (∀ content trigger, apply_trigger content trigger = applyTriggerSpec content trigger) ∧
    apply_trigger "red hair, smiling" (some "sks") = "sks, red hair, smiling" ∧
    (∀ fs tw sq dest images i d c,
      Event.writeText d c ∈ (folderLoop fs tw sq dest images i).2.2 →
        ∃ img cap, img ∈ images ∧ fs.readText (caption_path img) = some cap ∧
          c = apply_trigger cap tw) ∧
    (∀ fs tw sq images i t name c,
      zipLoop fs tw sq images i = .ok t → Event.zipText name c ∈ t.2.2 →
        ∃ img cap, img ∈ images ∧ fs.readText (caption_path img) = some cap ∧
          c = apply_trigger cap tw) := by
  refine ⟨?_, by decide, folderLoop_writeText, zipLoop_zipText⟩
  intro content trigger
  cases trigger with
  | none => rfl
  | some t =>
    by_cases ht : t = ""
    · subst ht
      rfl
    · simp [apply_trigger, applyTriggerSpec, ht]

/-- Witness for C7: a concrete folder-sink caption write is the trigger
transform of the caption that was read. -/
theorem trigger_transform_uniform_witness :
    ∃ img cap, img ∈ ["/s/a.png"] ∧ fsAll.readText (caption_path img) = some cap ∧
      "tag" = apply_trigger cap none :=
  trigger_transform_uniform.2.2.1 fsAll none false "/d" ["/s/a.png"] 0 "/d/a.txt" "tag"
    (by decide)

/-- The fused scan of `get_rating_for_path` is the per-key combination of the
case-insensitive matcher and the root-stripping matcher. -/
theorem ratingScan_eq_findSome (want root : String) :
    ∀ l : List (String × String),
      ratingScan want root l =
        l.findSome? (fun kv =>
          match matcherCI want kv with
          | some v => some v
          | none => matcherRootStrip want root kv)
  | [] => rfl
  | (k, v) :: rest => by
    have ih := ratingScan_eq_findSome want root rest
    simp only [ratingScan, List.findSome?, matcherCI, matcherRootStrip]
    by_cases h1 : normalize_key_for_lookup k = want
    · simp [h1]
    · rw [if_neg h1, if_neg h1]
      by_cases h2 : root ≠ "" ∧ (normalize_key_for_lookup k).length > root.length ∧
          (startsWithStr (normalize_key_for_lookup k) root ||
            startsWithStr (normalize_key_for_lookup k) (replaceBSStr root)) = true
      · rw [if_pos h2, if_pos h2]
        by_cases h3 : String.mk (dropSep ((((stripPfxStr (normalize_key_for_lookup k) root).orElse
            (fun _ => stripPfxStr (normalize_key_for_lookup k) (replaceBSStr root))).getD
              (normalize_key_for_lookup k)).toList)) ≠ "" ∧
            normalize_key_for_lookup (String.mk (dropSep ((((stripPfxStr
              (normalize_key_for_lookup k) root).orElse
                (fun _ => stripPfxStr (normalize_key_for_lookup k)
                  (replaceBSStr root))).getD (normalize_key_for_lookup k)).toList))) = want
        · rw [if_pos h3, if_pos h3]
        · rw [if_neg h3, if_neg h3]
          exact ih
      · rw [if_neg h2, if_neg h2]
        exact ih

/-- C1 (amended): `get_rating_for_path` tries the exact normalized key, then
the exact raw key when it differs, and then a single fused scan in which each
mapping key is tested case-insensitively first and by root-stripping second,
stopping at the first key matching either way and defaulting to the label
none; the tier-3 scan does not complete before tier-4 comparisons begin. -/
theorem rating_lookup_tiers_fused (ratings : List (String × String))
    (relKey rel projectRoot : String) :
    get_rating_for_path ratings relKey rel projectRoot =
      specResolveFused ratings relKey rel projectRoot := by
  unfold get_rating_for_path specResolveFused
  cases h1 : lookupExact ratings relKey with
  | some v => rfl
  | none =>
    cases h2 : (if rel ≠ relKey then lookupExact ratings rel else none) with
    | some v => rfl
    | none =>
      simp only [ratingScan_eq_findSome]
      cases List.findSome? (fun kv =>
          match matcherCI (normalize_key_for_lookup relKey) kv with
          | some v => some v
          | none =>
            matcherRootStrip (normalize_key_for_lookup relKey)
              (normalize_key_for_lookup projectRoot) kv) ratings with
      | some v => rfl
      | none => rfl

/-- C1 counterexample: under the strictly ordered tiers of the claim the
tier-3 key would win and yield good, but the code's fused scan answers bad,
because an earlier key matches by root-stripping first. -/
theorem rating_lookup_tiers_counterexample :
    get_rating_for_path cexRatings "a/b.png" "a/b.png" "/root" = "bad" ∧
    specResolveOrdered cexRatings "a/b.png" "a/b.png" "/root" = "good" ∧
    ("bad" : String) ≠ "good" := by
  refine ⟨by decide, by decide, by decide⟩

/-- The path comparison is total. -/
theorem listLe_total : ∀ as bs : List Char, listLe as bs = true ∨ listLe bs as = true
  | [], _ => .inl rfl
  | _ :: _, [] => .inr rfl
  | a :: as, b :: bs => by
    simp only [listLe]
    by_cases hab : a < b
    · left
      rw [if_pos hab]
    · by_cases hba : b < a
      · right
        rw [if_pos hba]
      · rw [if_neg hab, if_neg hba, if_neg hba, if_neg hab]
        exact listLe_total as bs

/-- The path comparison is transitive. -/
theorem listLe_trans : ∀ {as bs cs : List Char},
    listLe as bs = true → listLe bs cs = true → listLe as cs = true
  | [], _, _, _, _ => rfl
  | _ :: _, [], _, h1, _ => by simp [listLe] at h1
  | _ :: _, _ :: _, [], _, h2 => by simp [listLe] at h2
  | a :: as, b :: bs, c :: cs, h1, h2 => by
    simp only [listLe] at h1 h2 ⊢
    by_cases hab : a < b
    · by_cases hbc : b < c
      · rw [if_pos (lt_trans hab hbc)]
      · by_cases hcb : c < b
        · rw [if_neg hbc, if_pos hcb] at h2
          cases h2
        · have hbceq : b = c := le_antisymm (not_lt.1 hcb) (not_lt.1 hbc)
          subst hbceq
          rw [if_pos hab]
    · by_cases hba : b < a
      · rw [if_neg hab, if_pos hba] at h1
        cases h1
      · have heq : a = b := le_antisymm (not_lt.1 hba) (not_lt.1 hab)
        subst heq
        rw [if_neg hab, if_neg hba] at h1
        by_cases hac : a < c
        · rw [if_pos hac]
        · by_cases hca : c < a
          · rw [if_neg hac, if_pos hca] at h2
            cases h2
          · rw [if_neg hac, if_neg hca] at h2 ⊢
            exact listLe_trans h1 h2

instance : IsTotal String (fun a b : String => strLe a b = true) :=
  ⟨fun a b => listLe_total a.toList b.toList⟩

instance : IsTrans String (fun a b : String => strLe a b = true) :=
  ⟨fun _ _ _ h1 h2 => listLe_trans h1 h2⟩

/-- C2 (amended): in every export invocation — in particular when
`relativePaths` is provided — the selected sequence is the filtered list
sorted by full path string: it is sorted, and it is a permutation of the
caller-ordered filtered list (export.rs line 101 sorts both branches). -/
theorem selection_sorted_perm (fs : FS) (canonical : String) (opt : ExportOptions) :
    List.Sorted (fun a b : String => strLe a b = true) (selectImages fs canonical opt) ∧
    (selectImages fs canonical opt).Perm (selectPre fs canonical opt) :=
  ⟨List.sorted_insertionSort _ _, List.perm_insertionSort _ _⟩

/-- C2 counterexample: with `relativePaths = [b.png, a.png]` the surviving
caller-ordered list is b then a, but the selection comes out sorted as a
then b, so the selection does not follow the caller-supplied order. -/
theorem selection_sorted_counterexample :
    selectPre fsTwo "/src" optRev = ["/src/b.png", "/src/a.png"] ∧
    selectImages fsTwo "/src" optRev = ["/src/a.png", "/src/b.png"] ∧
    selectImages fsTwo "/src" optRev ≠ selectPre fsTwo "/src" optRev := by
  refine ⟨by decide, by decide, by decide⟩

/-- C3 (amended): the selection preserves multiplicity — an image path occurs
in the selection exactly as often as surviving entries resolve to it, so
listing the same image twice under `relativePaths` yields it twice; no
deduplication is performed. -/
theorem selection_count_preserved (fs : FS) (canonical : String)
    (opt : ExportOptions) (p : String) :
    (selectImages fs canonical opt).count p = (selectPre fs canonical opt).count p :=
  (List.perm_insertionSort _ _).count_eq p

/-- C3 counterexample: listing a.png twice selects it twice — the selected
sequence holds a duplicate ImagePath. -/
theorem selection_count_counterexample :
    selectImages fsTwo "/src" optDup = ["/src/a.png", "/src/a.png"] ∧
    ¬ (selectImages fsTwo "/src" optDup).Nodup := by
  refine ⟨by decide, by decide⟩

/-- Routing labels are limited to the three bucket names. -/
theorem routeOf_range (fs : FS) (ratings : List (String × String)) (canonical p l : String)
    (h : routeOf fs ratings canonical p = some l) :
    l = "good" ∨ l = "bad" ∨ l = "needs_edit" := by
  unfold routeOf at h
  cases hres : resolvedRatingStr fs ratings canonical p with
  | none =>
    simp only [hres] at h
    cases h
  | some s =>
    simp only [hres] at h
    cases hi : ImageRating.from_str s with
    | Good =>
      rw [hi] at h
      simp only [rating_key, Option.some.injEq] at h
      exact Or.inl h.symm
    | Bad =>
      rw [hi] at h
      simp only [rating_key, Option.some.injEq] at h
      exact Or.inr (Or.inl h.symm)
    | NeedsEdit =>
      rw [hi] at h
      simp only [rating_key, Option.some.injEq] at h
      exact Or.inr (Or.inr h.symm)
    | NoneRating =>
      rw [hi] at h
      simp only [rating_key] at h
      cases h

/-- A rating that resolves to the label none routes to no bucket. -/
theorem routeOf_of_none (fs : FS) (ratings : List (String × String)) (canonical p : String)
    (h : resolvedRatingStr fs ratings canonical p = some "none") :
    routeOf fs ratings canonical p = none := by
  unfold routeOf
  rw [h]
  rfl

/-- Consing an element routed to a bucket preserves the bucket's
membership characterization. -/
theorem mem_iff_consed (f : String → Option String) (q : String) (rest X : List String)
    (p lab : String) (hq : f q = some lab) (ih : p ∈ X ↔ p ∈ rest ∧ f p = some lab) :
    p ∈ q :: X ↔ p ∈ q :: rest ∧ f p = some lab := by
  constructor
  · intro h
    rcases List.mem_cons.1 h with h1 | h2
    · subst h1
      exact ⟨List.mem_cons_self _ _, hq⟩
    · obtain ⟨hm, hf⟩ := ih.1 h2
      exact ⟨List.mem_cons_of_mem _ hm, hf⟩
  · rintro ⟨hm, hf⟩
    rcases List.mem_cons.1 hm with h1 | h2
    · exact List.mem_cons.2 (Or.inl h1)
    · exact List.mem_cons.2 (Or.inr (ih.2 ⟨h2, hf⟩))

/-- Walking past an element routed elsewhere preserves a bucket's
membership characterization. -/
theorem mem_iff_unchanged (f : String → Option String) (q : String) (rest X : List String)
    (p lab : String) (hq : f q ≠ some lab) (ih : p ∈ X ↔ p ∈ rest ∧ f p = some lab) :
    p ∈ X ↔ p ∈ q :: rest ∧ f p = some lab := by
  rw [ih]
  constructor
  · rintro ⟨hm, hf⟩
    exact ⟨List.mem_cons_of_mem _ hm, hf⟩
  · rintro ⟨hm, hf⟩
    rcases List.mem_cons.1 hm with h1 | h2
    · subst h1
      exact absurd hf hq
    · exact ⟨h2, hf⟩

/-- Membership characterization of the three rating buckets: a walked path
lands in a bucket exactly when its route matches that bucket's label. -/
theorem bucketize_mem_iff (fs : FS) (ratings : List (String × String)) (canonical : String) :
    ∀ (files : List String) (p : String),
      (p ∈ (bucketize fs ratings canonical files).1 ↔
        p ∈ files ∧ routeOf fs ratings canonical p = some "good") ∧
      (p ∈ (bucketize fs ratings canonical files).2.1 ↔
        p ∈ files ∧ routeOf fs ratings canonical p = some "bad") ∧
      (p ∈ (bucketize fs ratings canonical files).2.2 ↔
        p ∈ files ∧ routeOf fs ratings canonical p = some "needs_edit")
  | [], p => by simp [bucketize]
  | q :: rest, p => by
    obtain ⟨ih1, ih2, ih3⟩ := bucketize_mem_iff fs ratings canonical rest p
    cases hr : routeOf fs ratings canonical q with
    | none =>
      have hb : bucketize fs ratings canonical (q :: rest) =
          bucketize fs ratings canonical rest := by
        simp [bucketize, hr]
      rw [hb]
      exact ⟨mem_iff_unchanged _ q rest _ p _ (by rw [hr]; simp) ih1,
             mem_iff_unchanged _ q rest _ p _ (by rw [hr]; simp) ih2,
             mem_iff_unchanged _ q rest _ p _ (by rw [hr]; simp) ih3⟩
    | some l =>
      rcases routeOf_range fs ratings canonical q l hr with hg | hb | hn
      · subst hg
        have hbk : bucketize fs ratings canonical (q :: rest) =
            (q :: (bucketize fs ratings canonical rest).1,
             (bucketize fs ratings canonical rest).2.1,
             (bucketize fs ratings canonical rest).2.2) := by
          simp [bucketize, hr]
        rw [hbk]
        exact ⟨mem_iff_consed _ q rest _ p _ hr ih1,
               mem_iff_unchanged _ q rest _ p _ (by rw [hr]; simp) ih2,
               mem_iff_unchanged _ q rest _ p _ (by rw [hr]; simp) ih3⟩
      · subst hb
        have hbk : bucketize fs ratings canonical (q :: rest) =
            ((bucketize fs ratings canonical rest).1,
             q :: (bucketize fs ratings canonical rest).2.1,
             (bucketize fs ratings canonical rest).2.2) := by
          simp [bucketize, hr]
        rw [hbk]
        exact ⟨mem_iff_unchanged _ q rest _ p _ (by rw [hr]; simp) ih1,
               mem_iff_consed _ q rest _ p _ hr ih2,
               mem_iff_unchanged _ q rest _ p _ (by rw [hr]; simp) ih3⟩
      · subst hn
        have hbk : bucketize fs ratings canonical (q :: rest) =
            ((bucketize fs ratings canonical rest).1,
             (bucketize fs ratings canonical rest).2.1,
             q :: (bucketize fs ratings canonical rest).2.2) := by
          simp [bucketize, hr]
        rw [hbk]
        exact ⟨mem_iff_unchanged _ q rest _ p _ (by rw [hr]; simp) ih1,
               mem_iff_unchanged _ q rest _ p _ (by rw [hr]; simp) ih2,
               mem_iff_consed _ q rest _ p _ hr ih3⟩

/-- C4: every walked image is routed into at most one of the buckets good,
bad, needs_edit, landing in a bucket exactly when its resolved rating names
that bucket, and an image whose rating resolves to none is placed in no
bucket and is never copied by the bucketed export. -/
theorem rating_buckets_partition (fs : FS) (ratings : List (String × String))
    (canonical : String) (files : List String) (p : String) :
    ((p ∈ (bucketize fs ratings canonical files).1 ↔
        p ∈ files ∧ routeOf fs ratings canonical p = some "good") ∧
      (p ∈ (bucketize fs ratings canonical files).2.1 ↔
        p ∈ files ∧ routeOf fs ratings canonical p = some "bad") ∧
      (p ∈ (bucketize fs ratings canonical files).2.2 ↔
        p ∈ files ∧ routeOf fs ratings canonical p = some "needs_edit")) ∧
    (¬ (p ∈ (bucketize fs ratings canonical files).1 ∧
        p ∈ (bucketize fs ratings canonical files).2.1) ∧
      ¬ (p ∈ (bucketize fs ratings canonical files).1 ∧
        p ∈ (bucketize fs ratings canonical files).2.2) ∧
      ¬ (p ∈ (bucketize fs ratings canonical files).2.1 ∧
        p ∈ (bucketize fs ratings canonical files).2.2)) ∧
    (resolvedRatingStr fs ratings canonical p = some "none" →
      p ∉ (bucketize fs ratings canonical files).1 ∧
      p ∉ (bucketize fs ratings canonical files).2.1 ∧
      p ∉ (bucketize fs ratings canonical files).2.2 ∧
      ∀ (options : ExportByRatingOptions) (r : ExportResult) (evs : List Event) (dst : String),
        export_by_rating fs ratings canonical options = .ok (r, evs) →
          Event.copy p dst ∉ evs) := by
  obtain ⟨h1, h2, h3⟩ := bucketize_mem_iff fs ratings canonical files p
  refine ⟨⟨h1, h2, h3⟩, ⟨?_, ?_, ?_⟩, ?_⟩
  · rintro ⟨ha, hb⟩
    have := (h1.1 ha).2
    have := (h2.1 hb).2
    simp_all
  · rintro ⟨ha, hb⟩
    have := (h1.1 ha).2
    have := (h3.1 hb).2
    simp_all
  · rintro ⟨ha, hb⟩
    have := (h2.1 ha).2
    have := (h3.1 hb).2
    simp_all
  · intro hnone
    have hroute := routeOf_of_none fs ratings canonical p hnone
    refine ⟨?_, ?_, ?_, ?_⟩
    · intro ha
      have := (h1.1 ha).2
      simp_all
    · intro ha
      have := (h2.1 ha).2
      simp_all
    · intro ha
      have := (h3.1 ha).2
      simp_all
    · intro options r evs dst hok hmem
      unfold export_by_rating at hok
      split at hok
      · cases hok
      · cases hok
        obtain ⟨w1, w2, w3⟩ := bucketize_mem_iff fs ratings canonical fs.walkFiles p
        rcases List.mem_append.1 hmem with hm12 | hm3
        · rcases List.mem_append.1 hm12 with hm1 | hm2
          · have hsrc := folderLoop_copy_src fs options.trigger_word options.sequential_naming
              (options.dest_path ++ "/" ++ "good") _ 0 p dst hm1
            have := (w1.1 ((List.mem_insertionSort _).1 hsrc)).2
            simp_all
          · have hsrc := folderLoop_copy_src fs options.trigger_word options.sequential_naming
              (options.dest_path ++ "/" ++ "bad") _ 0 p dst hm2
            have := (w2.1 ((List.mem_insertionSort _).1 hsrc)).2
            simp_all
        · have hsrc := folderLoop_copy_src fs options.trigger_word options.sequential_naming
            (options.dest_path ++ "/" ++ "needs_edit") _ 0 p dst hm3
          have := (w3.1 ((List.mem_insertionSort _).1 hsrc)).2
          simp_all

/-- Witness for C4: the image rated good lands in the good bucket. -/
theorem rating_buckets_partition_witness :
    "/r/a.png" ∈ (bucketize fsWalk [("a.png", "good")] "/r" ["/r/a.png"]).1 :=
  (rating_buckets_partition fsWalk [("a.png", "good")] "/r" ["/r/a.png"]
    "/r/a.png").1.1.mpr ⟨by decide, by decide⟩

theorem digitVal_decDigit (d : Nat) (h : d < 10) : digitVal (decDigit d) = d := by
  interval_cases d <;> decide

theorem decDigit_ne_dot (d : Nat) : decDigit d ≠ '.' := by
  unfold decDigit
  split_ifs <;> decide

theorem valOfAux_append : ∀ (l1 l2 : List Char) (a : Nat),
    valOfAux a (l1 ++ l2) = valOfAux (valOfAux a l1) l2
  | [], _, _ => rfl
  | c :: cs, l2, a => valOfAux_append cs l2 (10 * a + digitVal c)

theorem valOfAux_natDecimalAux : ∀ (fuel n : Nat), n < fuel →
    valOfAux 0 (natDecimalAux n fuel) = n
  | 0, n, h => absurd h (Nat.not_lt_zero n)
  | fuel + 1, n, h => by
    simp only [natDecimalAux]
    by_cases hn : n < 10
    · rw [if_pos hn]
      show 10 * 0 + digitVal (decDigit n) = n
      rw [digitVal_decDigit n hn]
      omega
    · rw [if_neg hn]
      rw [valOfAux_append]
      rw [valOfAux_natDecimalAux fuel (n / 10) (by omega)]
      show 10 * (n / 10) + digitVal (decDigit (n % 10)) = n
      rw [digitVal_decDigit (n % 10) (by omega)]
      omega

theorem valOfAux_replicate_zero : ∀ k, valOfAux 0 (List.replicate k '0') = 0
  | 0 => rfl
  | k + 1 => by
    show valOfAux (10 * 0 + digitVal '0') (List.replicate k '0') = 0
    have h0 : 10 * 0 + digitVal '0' = 0 := rfl
    rw [h0]
    exact valOfAux_replicate_zero k

/-- Decimal evaluation inverts the decimal representation. -/
theorem valOfAux_natDecimal (n : Nat) : valOfAux 0 (natDecimal n) = n :=
  valOfAux_natDecimalAux (n + 1) n (by omega)

/-- The zero-padded decimal representation is injective. -/
theorem format04Chars_inj (m n : Nat) (h : format04Chars m = format04Chars n) : m = n := by
  have hv := congrArg (valOfAux 0) h
  unfold format04Chars at hv
  rw [valOfAux_append, valOfAux_append, valOfAux_replicate_zero, valOfAux_replicate_zero] at hv
  rw [valOfAux_natDecimal, valOfAux_natDecimal] at hv
  exact hv

theorem natDecimalAux_ne_dot : ∀ (fuel n : Nat) (c : Char),
    c ∈ natDecimalAux n fuel → c ≠ '.'
  | 0, _, _, h => by cases h
  | fuel + 1, n, c, h => by
    simp only [natDecimalAux] at h
    by_cases hn : n < 10
    · rw [if_pos hn] at h
      rcases List.mem_singleton.1 h with h1
      subst h1
      exact decDigit_ne_dot n
    · rw [if_neg hn] at h
      rcases List.mem_append.1 h with h1 | h2
      · exact natDecimalAux_ne_dot fuel (n / 10) c h1
      · rcases List.mem_singleton.1 h2 with h3
        subst h3
        exact decDigit_ne_dot (n % 10)

/-- No dot occurs in a zero-padded decimal representation. -/
theorem format04Chars_ne_dot (n : Nat) (c : Char) (h : c ∈ format04Chars n) : c ≠ '.' := by
  unfold format04Chars at h
  rcases List.mem_append.1 h with h1 | h2
  · have := List.eq_of_mem_replicate h1
    subst this
    decide
  · exact natDecimalAux_ne_dot (n + 1) n c h2

/-- Characters before the first dot recover the dot-free prefix. -/
theorem takeWhile_append_dot : ∀ (a b : List Char), (∀ c ∈ a, c ≠ '.') →
    List.takeWhile (fun c => c != '.') (a ++ '.' :: b) = a
  | [], b, _ => by simp [List.takeWhile]
  | c :: a, b, h => by
    have hc : (c != '.') = true := by
      simp only [bne_iff_ne]
      exact h c (List.mem_cons_self _ _)
    simp only [List.cons_append, List.takeWhile, hc]
    exact congrArg (List.cons c)
      (takeWhile_append_dot a b (fun x hx => h x (List.mem_cons_of_mem _ hx)))

/-- Character decomposition of a sequential destination name. -/
theorem destName_seq_data (i : Nat) (img : String) :
    (destName true i img).data = format04Chars (i + 1) ++ '.' :: (extOr img).data := by
  have h0 : (destName true i img).data = (format04Chars (i + 1) ++ ['.']) ++ (extOr img).data :=
    rfl
  rw [h0, List.append_assoc]
  rfl

/-- Two equal sequential names force equal indices. -/
theorem destName_seq_index_inj (i j : Nat) (a b : String)
    (h : destName true i a = destName true j b) : i = j := by
  have hd := congrArg String.data h
  rw [destName_seq_data, destName_seq_data] at hd
  have ht := congrArg (List.takeWhile (fun c => c != '.')) hd
  rw [takeWhile_append_dot _ _ (format04Chars_ne_dot (i + 1)),
    takeWhile_append_dot _ _ (format04Chars_ne_dot (j + 1))] at ht
  have := format04Chars_inj (i + 1) (j + 1) ht
  omega

/-- C6: with sequential naming, the destination name at 1-based position i+1
is the zero-padded decimal of i+1 followed by a dot and the original file's
extension, and the names of one pass hold no duplicates. -/
theorem sequential_names_complete (images : List String) (i : Nat) (img : String)
    (h : images[i]? = some img) :
    (seqNames images)[i]? = some (format04 (i + 1) ++ "." ++ extOr img) ∧
    (seqNames images).Nodup := by
  constructor
  · unfold seqNames
    unfold List.enum
    rw [List.getElem?_map, List.getElem?_enumFrom, h]
    simp [destName]
  · unfold seqNames
    apply List.Nodup.map_on _ (List.Nodup.of_map Prod.fst (List.nodup_enum_map_fst images))
    rintro ⟨i1, a1⟩ hx ⟨i2, a2⟩ hy hf
    have hi : i1 = i2 := destName_seq_index_inj i1 i2 a1 a2 hf
    subst hi
    have h1 := (List.mk_mem_enum_iff_getElem?).1 hx
    have h2 := (List.mk_mem_enum_iff_getElem?).1 hy
    rw [h1] at h2
    cases h2
    rfl

/-- Witness for C6 on two concrete images. -/
theorem sequential_names_complete_witness :
    (seqNames ["/s/a.png", "/s/b.jpg"])[0]? =
      some (format04 1 ++ "." ++ extOr "/s/a.png") ∧
    (seqNames ["/s/a.png", "/s/b.jpg"]).Nodup :=
  sequential_names_complete ["/s/a.png", "/s/b.jpg"] 0 "/s/a.png" rfl

/-- A character list whose trim is empty is all whitespace. -/
theorem trimList_eq_nil {cs : List Char} (h : trimList cs = []) :
    ∀ c ∈ cs, wsChar c = true := by
  unfold trimList at h
  have h1 : (dropLeadWS cs).reverse.dropWhile wsChar = [] := List.reverse_eq_nil_iff.1 h
  have h3 : ∀ c ∈ dropLeadWS cs, wsChar c := fun c hc =>
    List.dropWhile_eq_nil_iff.1 h1 c (List.mem_reverse.2 hc)
  intro c hc
  rw [← List.takeWhile_append_dropWhile wsChar cs] at hc
  rcases List.mem_append.1 hc with h4 | h5
  · exact List.mem_takeWhile_imp h4
  · exact h3 c h5

/-- An all-whitespace character list trims to nothing. -/
theorem trimList_of_ws (t : List Char) (h : ∀ c ∈ t, wsChar c = true) :
    trimList t = [] := by
  unfold trimList dropLeadWS
  rw [List.dropWhile_eq_nil_iff.2 h]
  rfl

/-- Characters of a comma-split segment come from the split input. -/
theorem splitOnComma_subset : ∀ (cs t : List Char) (c : Char),
    t ∈ splitOnComma cs → c ∈ t → c ∈ cs
  | [], t, c, ht, hc => by
    simp only [splitOnComma] at ht
    rcases List.mem_singleton.1 ht with h
    subst h
    cases hc
  | d :: cs, t, c, ht, hc => by
    simp only [splitOnComma] at ht
    by_cases hd : d = ','
    · rw [if_pos hd] at ht
      rcases List.mem_cons.1 ht with h1 | h2
      · subst h1
        cases hc
      · exact List.mem_cons_of_mem _ (splitOnComma_subset cs t c h2 hc)
    · rw [if_neg hd] at ht
      cases hsp : splitOnComma cs with
      | nil =>
        rw [hsp] at ht
        rcases List.mem_singleton.1 ht with h
        subst h
        rcases List.mem_singleton.1 hc with h
        subst h
        exact List.mem_cons_self _ _
      | cons t0 ts =>
        rw [hsp] at ht
        rcases List.mem_cons.1 ht with h1 | h2
        · subst h1
          rcases List.mem_cons.1 hc with h3 | h4
          · subst h3
            exact List.mem_cons_self _ _
          · have hm : t0 ∈ splitOnComma cs := by
              rw [hsp]
              exact List.mem_cons_self _ _
            exact List.mem_cons_of_mem _ (splitOnComma_subset cs t0 c hm h4)
        · have hm : t ∈ splitOnComma cs := by
            rw [hsp]
            exact List.mem_cons_of_mem _ h2
          exact List.mem_cons_of_mem _ (splitOnComma_subset cs t c hm hc)

/-- The trimmed raw content is empty exactly when the trim is empty. -/
theorem trimStr_eq_empty_iff (s : String) : trimStr s = "" ↔ trimList s.toList = [] := by
  constructor
  · intro h
    exact congrArg String.data h
  · intro h
    unfold trimStr
    rw [h]

/-- Whitespace-only caption content parses to no tags. -/
theorem parse_tags_ws (raw : String) (h : trimList raw.toList = []) :
    parse_tags raw = [] := by
  unfold parse_tags
  rw [List.filter_eq_nil_iff]
  intro a ha
  rcases List.mem_map.1 ha with ⟨t, ht, rfl⟩
  have hall : ∀ c ∈ t, wsChar c = true := fun c hc =>
    trimList_eq_nil h c (splitOnComma_subset raw.toList t c ht hc)
  simp [trimList_of_ws t hall]

/-- C10: reading an existing but empty (or whitespace-only) caption file
yields exists true with empty raw content and no tags; the selection does not
look at caption contents at all, and the only-captioned filter admits an
image as soon as its caption file exists — so an empty-caption image is
included in an only-captioned export. -/
theorem empty_caption_still_captioned :
    (∀ (fs : FS) (p raw : String), fs.present (caption_path p) = true →
      fs.readText (caption_path p) = some raw → trimStr raw = "" →
      read_caption fs p = .ok ⟨true, "", []⟩) ∧
    (∀ (fs : FS) (g : String → Option String) (canonical : String) (opt : ExportOptions),
      selectImages { fs with readText := g } canonical opt = selectImages fs canonical opt) ∧
    (∀ (fs : FS) (canonical : String) (opt : ExportOptions) (rels : List String)
      (rel : String), opt.relative_paths = some rels → rel ∈ rels →
      normalize_rel rel ≠ "" →
      fs.isFile (canonical ++ "/" ++ normalize_rel rel) = true →
      is_image (canonical ++ "/" ++ normalize_rel rel) = true →
      fs.present (caption_path (canonical ++ "/" ++ normalize_rel rel)) = true →
      (canonical ++ "/" ++ normalize_rel rel) ∈ selectImages fs canonical opt) := by
  refine ⟨?_, ?_, ?_⟩
  · intro fs p raw h1 h2 h3
    unfold read_caption
    rw [if_neg (by rw [h1]; simp)]
    simp only [h2]
    rw [h3, parse_tags_ws raw ((trimStr_eq_empty_iff raw).1 h3)]
  · intro fs g canonical opt
    rfl
  · intro fs canonical opt rels rel hrp hmem hnorm hfile himg hcap
    have hpre : (canonical ++ "/" ++ normalize_rel rel) ∈ selectPre fs canonical opt := by
      unfold selectPre
      rw [hrp]
      refine List.mem_filterMap.2 ⟨rel, hmem, ?_⟩
      rw [if_neg hnorm]
      rw [if_pos (by rw [hfile, himg]; rfl)]
      rw [if_neg ?_]
      intro hcontra
      rw [hcap] at hcontra
      simp at hcontra
    unfold selectImages
    exact (List.mem_insertionSort _).2 hpre

/-- Witness for C10: the whitespace-only caption reads back empty and the
image passes the only-captioned selection. -/
theorem empty_caption_still_captioned_witness :
    read_caption fsEmptyCap "/src/a.png" = .ok ⟨true, "", []⟩ ∧
    ("/src" ++ "/" ++ normalize_rel "a.png") ∈ selectImages fsEmptyCap "/src" optCap :=
  ⟨empty_caption_still_captioned.1 fsEmptyCap "/src/a.png" "  " rfl rfl (by decide),
    empty_caption_still_captioned.2.2 fsEmptyCap "/src" optCap ["a.png"] "a.png" rfl
      (List.mem_singleton.2 rfl) (by decide) (by decide) (by decide) (by decide)⟩

/-- Splitting always yields at least one segment. -/
theorem splitOnComma_ne_nil : ∀ cs : List Char, splitOnComma cs ≠ []
  | [] => by simp [splitOnComma]
  | c :: cs => by
    simp only [splitOnComma]
    by_cases hc : c = ','
    · rw [if_pos hc]
      simp
    · rw [if_neg hc]
      cases hsp : splitOnComma cs with
      | nil => simp
      | cons t ts => simp

/-- A comma-free list splits into itself. -/
theorem splitOnComma_no_comma : ∀ cs : List Char, (∀ c ∈ cs, c ≠ ',') →
    splitOnComma cs = [cs]
  | [], _ => rfl
  | c :: cs, h => by
    simp only [splitOnComma]
    rw [if_neg (h c (List.mem_cons_self _ _))]
    rw [splitOnComma_no_comma cs (fun x hx => h x (List.mem_cons_of_mem _ hx))]

/-- Splitting past a comma-free prefix peels one segment. -/
theorem splitOnComma_append : ∀ (a rest : List Char), (∀ c ∈ a, c ≠ ',') →
    splitOnComma (a ++ ',' :: rest) = a :: splitOnComma rest
  | [], rest, _ => by simp [splitOnComma]
  | c :: a, rest, h => by
    simp only [List.cons_append, splitOnComma]
    rw [if_neg (h c (List.mem_cons_self _ _))]
    simp only [List.append_eq,
      splitOnComma_append a rest (fun x hx => h x (List.mem_cons_of_mem _ hx))]

/-- Trimming ignores a leading space. -/
theorem trimList_cons_space (cs : List Char) : trimList (' ' :: cs) = trimList cs := by
  unfold trimList dropLeadWS
  rw [List.dropWhile_cons]
  rw [if_pos (by decide)]

/-- The caption round trip: parsing the comma-space join gives back any tag
list whose entries are nonempty, comma-free and trim-stable. -/
theorem parse_tags_joinComma : ∀ (tags : List String),
    (∀ t ∈ tags, t ≠ "") → (∀ t ∈ tags, ∀ c ∈ t.toList, c ≠ ',') →
    (∀ t ∈ tags, trimStr t = t) →
    parse_tags (joinComma tags) = tags
  | [], _, _, _ => by decide
  | [t], h1, _h2, h3 => by
    unfold parse_tags joinComma
    show ((splitOnComma t.toList).map (fun u => String.mk (trimList u))).filter
      (fun s => s ≠ "") = [t]
    rw [splitOnComma_no_comma t.toList (_h2 t (List.mem_singleton.2 rfl))]
    have hft : String.mk (trimList t.data) = t := h3 t (List.mem_singleton.2 rfl)
    simp [hft, h1 t (List.mem_singleton.2 rfl)]
  | t :: t2 :: ts, h1, h2, h3 => by
    have ih := parse_tags_joinComma (t2 :: ts)
      (fun u hu => h1 u (List.mem_cons_of_mem _ hu))
      (fun u hu => h2 u (List.mem_cons_of_mem _ hu))
      (fun u hu => h3 u (List.mem_cons_of_mem _ hu))
    unfold parse_tags
    show ((splitOnComma (t.toList ++ ',' :: ' ' :: (joinComma (t2 :: ts)).toList)).map
      (fun u => String.mk (trimList u))).filter (fun s => s ≠ "") = t :: t2 :: ts
    rw [splitOnComma_append _ _ (h2 t (List.mem_cons_self _ _))]
    cases hsp : splitOnComma (joinComma (t2 :: ts)).toList with
    | nil => exact absurd hsp (splitOnComma_ne_nil _)
    | cons t0 ts0 =>
      have hs2 : splitOnComma (' ' :: (joinComma (t2 :: ts)).toList) = (' ' :: t0) :: ts0 := by
        simp only [splitOnComma]
        rw [if_neg (by decide), hsp]
      rw [hs2]
      have hft : String.mk (trimList t.toList) = t := h3 t (List.mem_cons_self _ _)
      have hsp2 : String.mk (trimList (' ' :: t0)) = String.mk (trimList t0) := by
        rw [trimList_cons_space]
      have ihe : ((t0 :: ts0).map (fun u => String.mk (trimList u))).filter
          (fun s => s ≠ "") = t2 :: ts := by
        unfold parse_tags at ih
        rw [hsp] at ih
        exact ih
      simp only [List.map_cons]
      rw [hft, hsp2]
      rw [List.filter_cons, if_pos (by simp [h1 t (List.mem_cons_self _ _)])]
      simp only [List.map_cons] at ihe
      rw [ihe]

/-- C5 (amended): writing a caption and reading it back yields exactly the
written tags when every tag is nonempty, no two tags are equal under
case-insensitive comparison, no tag contains a comma, and every tag equals
its own trim. -/
theorem caption_roundtrip_amended (fs : FS) (p : String) (tags : List String)
    (h1 : ∀ t ∈ tags, t ≠ "")
    (_h2 : tags.Pairwise (fun a b => lowerStr a ≠ lowerStr b))
    (h3 : ∀ t ∈ tags, ∀ c ∈ t.toList, c ≠ ',')
    (h4 : ∀ t ∈ tags, trimStr t = t) :
    read_caption (write_caption fs p tags) p =
      .ok ⟨true, trimStr (joinComma tags), tags⟩ := by
  have hpres : (write_caption fs p tags).present (caption_path p) = true := by
    unfold write_caption
    simp
  have hread : (write_caption fs p tags).readText (caption_path p) =
      some (joinComma tags) := by
    unfold write_caption
    simp
  unfold read_caption
  rw [if_neg (by rw [hpres]; simp)]
  simp only [hread]
  rw [parse_tags_joinComma tags h1 h3 h4]

/-- Witness for C5 on a concrete two-tag caption. -/
theorem caption_roundtrip_amended_witness :
    read_caption (write_caption fs0 "img.png" ["red hair", "smiling"]) "img.png" =
      .ok ⟨true, trimStr (joinComma ["red hair", "smiling"]), ["red hair", "smiling"]⟩ :=
  caption_roundtrip_amended fs0 "img.png" ["red hair", "smiling"] (by decide) (by decide)
    (by decide) (by decide)

/-- C5 counterexample: the tag list with the single entry a,b satisfies the
claim's hypotheses — nonempty entries, no case-insensitive duplicates — yet
the round trip returns the two tags a and b instead. -/
theorem caption_roundtrip_counterexample :
    (∀ t ∈ (["a,b"] : List String), t ≠ "") ∧
    (["a,b"] : List String).Pairwise (fun a b => lowerStr a ≠ lowerStr b) ∧
    read_caption (write_caption fs0 "img.png" ["a,b"]) "img.png" =
      .ok ⟨true, "a,b", ["a", "b"]⟩ ∧
    (["a", "b"] : List String) ≠ ["a,b"] := by
  refine ⟨by decide, by decide, rfl, by decide⟩
